import Mathlib

/-!
Verification of the LLEO framework orchestration core.

Each definition in this file is a shallow embedding of a function of the
LLEO source tree (`src/core/...`): Python floats and monotonic-clock
readings are modelled as exact rationals (`ℚ`), Python dicts as
association lists, exceptions as `Except`/`Option`, and `async` control
flow as explicit state passing where the interleaving does not matter for
the properties below.  Doc comments on each definition name the Python
function it embeds.
-/

namespace LLEO

/-! ## Rate limiter — `src/core/utils/rate_limiter.py`

`RateLimiter.__init__` builds a `RateLimitConfig` and starts with
`tokens = burst_size`, `last_update = time.monotonic()`.  The rolling
statistics (`RateLimitStats`) only feed logging and are not part of the
token dynamics, so they are not modelled here. -/

/-- The `RateLimitConfig` dataclass (defaults as in the source). -/
structure RateLimitConfig where
  calls_per_second : ℚ := 10
  burst_size : ℚ := 100
  min_interval : ℚ := 1/10
  max_retries : Nat := 3
  retry_delay : ℚ := 1
deriving Repr, DecidableEq

/-- The mutable token-bucket state of a `RateLimiter` instance:
`self.tokens` and `self.last_update`. -/
structure RateLimiterState where
  tokens : ℚ
  last_update : ℚ
deriving Repr, DecidableEq

/-- The `RateLimiter.__init__(calls_per_second, burst_size)`: config plus the
initial state (`tokens = burst_size or calls_per_second`,
`last_update = now`). -/
def RateLimiter.init (calls_per_second : ℚ) (burst_size : Option ℚ)
    (now : ℚ) : RateLimitConfig × RateLimiterState :=
  let cfg : RateLimitConfig :=
    { calls_per_second := calls_per_second
      burst_size := burst_size.getD calls_per_second }
  (cfg, { tokens := cfg.burst_size, last_update := now })

/-- The `RateLimiter._add_new_tokens`: lazy refill proportional to elapsed
time, with the 1.5× boost when the bucket is below half the burst size,
clamped to `burst_size`. -/
def _add_new_tokens (cfg : RateLimitConfig) (st : RateLimiterState)
    (now : ℚ) : RateLimiterState :=
  let time_passed := now - st.last_update
  let new_tokens := time_passed * cfg.calls_per_second
  let max_tokens := cfg.burst_size
  let new_tokens :=
    if st.tokens < max_tokens / 2 then new_tokens * (3/2) else new_tokens
  { tokens := min max_tokens (st.tokens + new_tokens), last_update := now }

/-- The `RateLimiter._time_to_tokens`: time needed before `tokens` tokens are
available. -/
def _time_to_tokens (cfg : RateLimitConfig) (st : RateLimiterState)
    (tokens : ℚ) : ℚ :=
  let needed := tokens - st.tokens
  if needed ≤ 0 then 0 else needed / cfg.calls_per_second

/-- Result of one `acquire` call: the returned boolean, the state of the
limiter afterwards, and the total time spent sleeping inside the call. -/
structure AcquireResult where
  granted : Bool
  state : RateLimiterState
  waited : ℚ
deriving Repr, DecidableEq

/-- The `for attempt in range(max_retries)` loop of `RateLimiter.acquire`,
with `fuel` = number of attempts still allowed (so the Python guard
`attempt < max_retries - 1` is `0 < fuel` after peeling one attempt).
Sleeping advances the clock by exactly the slept amount; no other time
passes during the call.  Exhausting the loop (`max_retries = 0`) falls
through like the Python `for`, returning a falsy result. -/
def acquireGo (cfg : RateLimitConfig) (n : ℚ) :
    Nat → RateLimiterState → ℚ → ℚ → AcquireResult
  | 0, st, _, waited => ⟨false, st, waited⟩
  | fuel+1, st, now, waited =>
    let st1 := _add_new_tokens cfg st now
    if n ≤ st1.tokens then
      ⟨true, { st1 with tokens := st1.tokens - n }, waited⟩
    else
      let wait_time := _time_to_tokens cfg st1 n
      if 0 < wait_time then
        if 0 < fuel then
          let s := min wait_time cfg.retry_delay
          acquireGo cfg n fuel st1 (now + s) (waited + s)
        else
          ⟨false, st1, waited⟩
      else
        ⟨true, { st1 with tokens := st1.tokens - n }, waited⟩

/-- The `RateLimiter.acquire(tokens, retry=True)` entered at clock reading
`now`. -/
def acquire (cfg : RateLimitConfig) (st : RateLimiterState) (now : ℚ)
    (n : ℚ := 1) : AcquireResult :=
  acquireGo cfg n cfg.max_retries st now 0

/-- Issues `k` consecutive `acquire(1)` calls issued at the same clock reading
`now` (no elapsed time between the calls), threading the limiter state. -/
def acquireSeq (cfg : RateLimitConfig) (st : RateLimiterState) (now : ℚ) :
    Nat → List Bool × RateLimiterState
  | 0 => ([], st)
  | k+1 =>
    let r := acquire cfg st now 1
    let rest := acquireSeq cfg r.state now k
    (r.granted :: rest.1, rest.2)

/-- The configuration of the rate-limiter scenario of the spec:
`burst_size = 5`, `calls_per_second = 5`. -/
def cfg5 : RateLimitConfig :=
  { calls_per_second := 5, burst_size := 5, min_interval := 1/10,
    max_retries := 3, retry_delay := 1 }

/-- A freshly constructed limiter state for `cfg5` at clock reading 0. -/
def st5 : RateLimiterState := { tokens := 5, last_update := 0 }

/-- C2: with `burst_size = 5` and `calls_per_second = 5`, five
consecutive `acquire(1)` calls with no elapsed time all succeed
immediately (no waiting); a sixth immediate `acquire(1)` is denied or
waits at least 0.2 seconds (the code sleeps exactly 0.2 s and then
succeeds on a boosted refill); and once a full second of clock time has
elapsed the bucket has replenished to the burst size, so five further
`acquire(1)` calls all succeed. -/
theorem C2_rate_limiter_conservation :
    (acquireSeq cfg5 st5 0 5).1 = [true, true, true, true, true] ∧
    (acquireSeq cfg5 st5 0 5).2.tokens = 0 ∧
    (let a6 := acquire cfg5 (acquireSeq cfg5 st5 0 5).2 0 1
     (a6.granted = false ∨ (1/5 : ℚ) ≤ a6.waited) ∧
     (acquireSeq cfg5 a6.state (a6.state.last_update + 1) 5).1 =
       [true, true, true, true, true]) := by
  refine ⟨?_, ?_, Or.inr ?_, ?_⟩ <;>
    norm_num [acquireSeq, acquire, acquireGo, _add_new_tokens,
      _time_to_tokens, cfg5, st5, min_def]

/-! ### The token-range invariant (C3) -/

/-- One refill step keeps the token count in `[0, burst_size]`, provided
the clock is monotone and the rate settings are non-negative. -/
theorem tokens_range_add_new_tokens {cfg : RateLimitConfig}
    {st : RateLimiterState} {now : ℚ}
    (hcps : 0 ≤ cfg.calls_per_second) (hburst : 0 ≤ cfg.burst_size)
    (hnow : st.last_update ≤ now) (h0 : 0 ≤ st.tokens) :
    0 ≤ (_add_new_tokens cfg st now).tokens ∧
      (_add_new_tokens cfg st now).tokens ≤ cfg.burst_size := by
  unfold _add_new_tokens
  simp only
  have htp : (0:ℚ) ≤ now - st.last_update := by linarith
  have hnt : (0:ℚ) ≤ (now - st.last_update) * cfg.calls_per_second :=
    mul_nonneg htp hcps
  constructor
  · apply le_min hburst
    split
    · nlinarith
    · linarith
  · exact min_le_left _ _

/-- The `acquire` retry loop keeps the token count in `[0, burst_size]`:
tokens are debited only when at least `n` are available, and every refill
is clamped. -/
theorem tokens_range_acquireGo {cfg : RateLimitConfig} {n : ℚ}
    (hcps : 0 < cfg.calls_per_second) (hburst : 0 ≤ cfg.burst_size)
    (hdelay : 0 ≤ cfg.retry_delay) (hn : 0 ≤ n) :
    ∀ (fuel : Nat) (st : RateLimiterState) (now waited : ℚ),
      st.last_update ≤ now → 0 ≤ st.tokens → st.tokens ≤ cfg.burst_size →
      0 ≤ (acquireGo cfg n fuel st now waited).state.tokens ∧
        (acquireGo cfg n fuel st now waited).state.tokens ≤ cfg.burst_size := by
  intro fuel
  induction fuel with
  | zero =>
    intro st now waited _hnow h0 h1
    exact ⟨h0, h1⟩
  | succ fuel ih =>
    intro st now waited hnow h0 h1
    obtain ⟨h0', h1'⟩ :=
      tokens_range_add_new_tokens hcps.le hburst hnow h0
    have hlu : (_add_new_tokens cfg st now).last_update = now := rfl
    simp only [acquireGo]
    split_ifs with hok hw hf
    · exact ⟨by simpa using sub_nonneg.2 hok, by simp; linarith⟩
    · exact ih (_add_new_tokens cfg st now) _ _ (by rw [hlu]; have := le_min hw.le hdelay; linarith) h0' h1'
    · exact ⟨h0', h1'⟩
    · -- branch where `wait_time ≤ 0` yet `tokens < n`: impossible
      exfalso
      apply hw
      have hlt : (_add_new_tokens cfg st now).tokens < n := not_le.1 hok
      have hneed : (0:ℚ) < n - (_add_new_tokens cfg st now).tokens := by linarith
      unfold _time_to_tokens
      simp only [not_le.2 hneed, if_false]
      exact div_pos hneed hcps

/-- An observable operation on one limiter instance: a bare lazy refill
(`_add_new_tokens`, which every access performs) or a full
`acquire(n)` call, each entered at a given monotonic-clock reading. -/
inductive RLOp where
  | refillOp (now : ℚ)
  | acquireOp (now : ℚ) (n : ℚ)
deriving Repr, DecidableEq

/-- The clock reading at which an operation is entered. -/
def RLOp.time : RLOp → ℚ
  | .refillOp now => now
  | .acquireOp now _ => now

/-- The token amount an operation requests (0 for a bare refill). -/
def RLOp.amount : RLOp → ℚ
  | .refillOp _ => 0
  | .acquireOp _ n => n

/-- The effect of one operation on the limiter state. -/
def RLOp.step (cfg : RateLimitConfig) (st : RateLimiterState) :
    RLOp → RateLimiterState
  | .refillOp now => _add_new_tokens cfg st now
  | .acquireOp now n => (acquire cfg st now n).state

/-- Runs a sequence of operations on one limiter instance. -/
def runOps (cfg : RateLimitConfig) :
    RateLimiterState → List RLOp → RateLimiterState
  | st, [] => st
  | st, op :: rest => runOps cfg (op.step cfg st) rest

/-- A sequence of operations is valid when the monotonic clock never runs
backwards across operations and every `acquire` requests a non-negative
amount (the source default `tokens: int = 1`). -/
def validOps (cfg : RateLimitConfig) :
    RateLimiterState → List RLOp → Bool
  | _, [] => true
  | st, op :: rest =>
    decide (st.last_update ≤ op.time) && decide (0 ≤ op.amount) &&
      validOps cfg (op.step cfg st) rest

/-- One valid operation keeps the token count in `[0, burst_size]`. -/
theorem tokens_range_step {cfg : RateLimitConfig} {st : RateLimiterState}
    {op : RLOp}
    (hcps : 0 < cfg.calls_per_second) (hburst : 0 ≤ cfg.burst_size)
    (hdelay : 0 ≤ cfg.retry_delay)
    (ht : st.last_update ≤ op.time) (ha : 0 ≤ op.amount)
    (h0 : 0 ≤ st.tokens) (h1 : st.tokens ≤ cfg.burst_size) :
    0 ≤ (op.step cfg st).tokens ∧
      (op.step cfg st).tokens ≤ cfg.burst_size := by
  cases op with
  | refillOp now =>
    exact tokens_range_add_new_tokens hcps.le hburst ht h0
  | acquireOp now n =>
    exact tokens_range_acquireGo hcps hburst hdelay ha _ st now 0 ht h0 h1

/-- C3: for every limiter instance and every valid sequence of `acquire`
and refill operations, the token count lies in `[0, burst_size]` at every
observation point (i.e. after every initial segment of the sequence): refills —
including the 1.5× boost applied below half the burst size — are clamped
to `burst_size`, and a debit of `n` tokens only happens when at least `n`
tokens are available. -/
theorem C3_token_range_invariant (cfg : RateLimitConfig)
    (st : RateLimiterState) (ops : List RLOp)
    (hcps : 0 < cfg.calls_per_second) (hburst : 0 ≤ cfg.burst_size)
    (hdelay : 0 ≤ cfg.retry_delay)
    (hv : validOps cfg st ops = true)
    (h0 : 0 ≤ st.tokens) (h1 : st.tokens ≤ cfg.burst_size) :
    ∀ k, 0 ≤ (runOps cfg st (ops.take k)).tokens ∧
      (runOps cfg st (ops.take k)).tokens ≤ cfg.burst_size := by
  induction ops generalizing st with
  | nil =>
    intro k
    simpa [runOps] using ⟨h0, h1⟩
  | cons op rest ih =>
    intro k
    simp only [validOps, Bool.and_eq_true, decide_eq_true_eq] at hv
    obtain ⟨⟨ht, ha⟩, hv'⟩ := hv
    obtain ⟨h0', h1'⟩ := tokens_range_step hcps hburst hdelay ht ha h0 h1
    cases k with
    | zero => simpa [runOps] using ⟨h0, h1⟩
    | succ j =>
      simpa [runOps] using ih (op.step cfg st) hv' h0' h1' j

/-- Example operation sequence used by the C3 witness. -/
def opsEx : List RLOp := [.acquireOp 0 1, .refillOp 1, .acquireOp 2 3]

/-- Witness instantiating `C3_token_range_invariant` on `cfg5`, `st5` and
a concrete valid operation sequence. -/
theorem C3_token_range_invariant_witness :
    0 ≤ (runOps cfg5 st5 (opsEx.take 3)).tokens ∧
      (runOps cfg5 st5 (opsEx.take 3)).tokens ≤ cfg5.burst_size :=
  C3_token_range_invariant cfg5 st5 opsEx
    (by norm_num [cfg5]) (by norm_num [cfg5]) (by norm_num [cfg5])
    (by norm_num [validOps, opsEx, RLOp.step, RLOp.time, RLOp.amount,
      acquire, acquireGo, _add_new_tokens, _time_to_tokens, cfg5, st5,
      min_def])
    (by norm_num [st5]) (by norm_num [st5, cfg5]) 3

/-! ## Retry with exponential backoff — `src/core/modules/base.py`

`BaseModule.run_with_retry(func, *args, max_retries=3)` loops
`for attempt in range(max_retries)`: it awaits `func`, returns its value
on success, re-raises on the last attempt, and otherwise sleeps
`2 ** attempt` seconds before retrying.  The wrapped async function is
modelled by its behaviour per invocation number: `f attempt` either
returns a value (`Except.ok`) or raises (`Except.error`). -/

/-- The body of the `for attempt in range(max_retries)` loop, over the
list of remaining attempt numbers.  Returns the outcome (`none` models
the implicit `None` when the loop exhausts without returning, which only
happens for `max_retries = 0`), the number of invocations of `f`, and the
list of backoff sleep durations in seconds, in order. -/
def retryLoop {ε α : Type _} (f : Nat → Except ε α) (mr : Nat) :
    List Nat → Option (Except ε α) × Nat × List Nat
  | [] => (none, 0, [])
  | attempt :: rest =>
    match f attempt with
    | .ok a => (some (.ok a), 1, [])
    | .error e =>
      if attempt = mr - 1 then (some (.error e), 1, [])
      else
        let r := retryLoop f mr rest
        (r.1, r.2.1 + 1, 2 ^ attempt :: r.2.2)

/-- The `BaseModule.run_with_retry` with `max_retries = mr`. -/
def run_with_retry {ε α : Type _} (f : Nat → Except ε α)
    (mr : Nat := 3) : Option (Except ε α) × Nat × List Nat :=
  retryLoop f mr (List.range mr)

/-- C4: with `max_retries = 3`, a function that always raises is invoked
exactly 3 times, the exception of the final (third) invocation is
re-raised, and the sleeps before re-attempts 1 and 2 are `2^0 = 1` and
`2^1 = 2` seconds; a function that fails twice and then succeeds returns
the success value after exactly 3 invocations, with the same backoff
sleeps. -/
theorem C4_retry_backoff {ε α : Type} (f : Nat → Except ε α) :
    ((∀ k, ∃ e, f k = .error e) →
      run_with_retry f 3 = (some (f 2), 3, [1, 2])) ∧
    (∀ e₀ e₁ v, f 0 = .error e₀ → f 1 = .error e₁ → f 2 = .ok v →
      run_with_retry f 3 = (some (.ok v), 3, [1, 2])) := by
  have hr3 : List.range 3 = [0, 1, 2] := rfl
  constructor
  · intro h
    obtain ⟨e₀, he₀⟩ := h 0
    obtain ⟨e₁, he₁⟩ := h 1
    obtain ⟨e₂, he₂⟩ := h 2
    simp [run_with_retry, hr3, retryLoop, he₀, he₁, he₂]
  · intro e₀ e₁ v he₀ he₁ hv
    simp [run_with_retry, hr3, retryLoop, he₀, he₁, hv]

/-- A wrapped function that raises on every invocation. -/
def alwaysFails : Nat → Except String Nat := fun _ => .error "boom"

/-- Witness instantiating `C4_retry_backoff` on a concrete
always-raising function. -/
theorem C4_retry_backoff_witness :
    run_with_retry alwaysFails 3 = (some (alwaysFails 2), 3, [1, 2]) :=
  (C4_retry_backoff alwaysFails).1 (fun _k => ⟨"boom", rfl⟩)

/-! ## Result cache — `src/core/utils/cache_manager.py`

`CacheManager` wraps a `cachetools.TTLCache(maxsize=100, ttl=ttl)` whose
TTL is fixed at construction (default 3600 s).  An entry inserted at time
`t₀` is visible to `get` while `now < t₀ + ttl`.  `CacheManager.set`
accepts a per-call `ttl` argument but never passes it on: the body is
just `self.memory_cache[key] = value`.  The `maxsize` eviction of the
oldest entries is irrelevant to single-key scenarios and not modelled. -/

/-- One `TTLCache` entry: stored payload plus its insertion timestamp. -/
structure CacheEntry (α : Type _) where
  value : α
  created : ℚ
deriving Repr, DecidableEq

/-- The `CacheManager`: the construction-time TTL and the backing store. -/
structure CacheManagerM (α : Type _) where
  ttl : ℚ
  entries : List (String × CacheEntry α)
deriving Repr, DecidableEq

/-- The `CacheManager.__init__(cache_dir, ttl=3600)`. -/
def CacheManagerM.init (α : Type _) (ttl : ℚ := 3600) : CacheManagerM α :=
  ⟨ttl, []⟩

/-- The `CacheManager.set(key, value, ttl=None)` entered at clock reading
`now`.  The `ttlArg` parameter is accepted but ignored by the source. -/
def CacheManagerM.set {α : Type _} (c : CacheManagerM α) (key : String)
    (value : α) (_ttlArg : Option ℚ) (now : ℚ) : CacheManagerM α :=
  { c with
    entries := (key, ⟨value, now⟩) :: c.entries.filter (fun p => p.1 != key) }

/-- The `CacheManager.get(key)` at clock reading `now`: the `TTLCache` lookup
returns the stored value only while the entry is unexpired. -/
def CacheManagerM.get {α : Type _} (c : CacheManagerM α) (key : String)
    (now : ℚ) : Option α :=
  match c.entries.find? (fun p => p.1 == key) with
  | some (_, e) => if now < e.created + c.ttl then some e.value else none
  | none => none

/-- C5 counterexample: on a cache constructed with the default
`ttl = 3600`, `set("k", 7, ttl=1)` at time 0 followed by `get("k")` at
time 1.1 still returns the value — not absent as the claim requires —
because the per-call TTL argument is ignored. -/
theorem C5_cache_ttl_counterexample :
    ((CacheManagerM.init Nat 3600).set "k" 7 (some 1) 0).get "k" (11/10) =
      some 7 := by
  norm_num [CacheManagerM.init, CacheManagerM.set, CacheManagerM.get,
    List.find?]

/-- C5 amended: `set` ignores its per-call `ttl` argument entirely, and
an entry stored at `t₀` is visible to `get` at `now` exactly while
`now − t₀` is less than the cache-wide TTL fixed at construction. -/
theorem C5_cache_ttl_amended {α : Type _} (c : CacheManagerM α)
    (key : String) (v : α) (ttlArg ttlArg' : Option ℚ) (t₀ now : ℚ) :
    c.set key v ttlArg t₀ = c.set key v ttlArg' t₀ ∧
    (c.set key v ttlArg t₀).get key now =
      (if now < t₀ + c.ttl then some v else none) := by
  constructor
  · rfl
  · simp [CacheManagerM.set, CacheManagerM.get, List.find?]

/-! ## Tool version comparison — `src/core/utils/tool_checker.py` and
`Framework.verify_tools` (`src/core/framework.py`)

Version strings with a determinable version are parsed into integer
component lists (e.g. `"2.6.0"` ↦ `[2, 6, 0]`). -/

/-- The Python `<` on two integer lists: lexicographic, with a shorter list
smaller than any proper extension of it. -/
def pyListLt : List Nat → List Nat → Bool
  | [], [] => false
  | [], _ :: _ => true
  | _ :: _, [] => false
  | a :: as, b :: bs =>
    if a < b then true else if b < a then false else pyListLt as bs

/-- The `while` padding loops of `_compare_versions`: append zeros until
the list has length `n`. -/
def padTo (l : List Nat) (n : Nat) : List Nat :=
  l ++ List.replicate (n - l.length) 0

/-- The `ToolChecker._compare_versions(current, minimum)`: zero-pad both
component lists to equal length, then return `True` iff `current` is
older (numerically smaller) than `minimum`. -/
def _compare_versions (current minimum : List Nat) : Bool :=
  let current1 := padTo current minimum.length
  let minimum1 := padTo minimum current1.length
  pyListLt current1 minimum1

/-- The status that `Framework.verify_tools` reports for an installed
tool with a determinable current version and a declared minimum:
`is_outdated = not self.tool_checker._compare_versions(current, min)`,
then `outdated` when `is_outdated` else `ok`. -/
def verifyToolStatus (current minimum : List Nat) : String :=
  if !(_compare_versions current minimum) then "outdated" else "ok"

/-- C7: the code negates `_compare_versions`, whose own docstring says it
already returns `True` iff `current` is older than `minimum`.  So
`verify_tools` reports a tool whose current version equals (or exceeds)
the minimum as `outdated`, and a strictly older tool as `ok` —
the exact opposite of the claim. -/
theorem C7_version_check_inverted :
    _compare_versions [2, 6, 0] [2, 6, 0] = false ∧
    verifyToolStatus [2, 6, 0] [2, 6, 0] = "outdated" ∧
    _compare_versions [1, 0, 0] [2, 6, 0] = true ∧
    verifyToolStatus [1, 0, 0] [2, 6, 0] = "ok" := by
  decide

/-! ## Discovery merge/dedup — `DiscoveryModule.run`
(`src/core/modules/discovery.py`, lines 136–148)

Tool task results are appended to `results["subdomains"]` and then
deduplicated by `list(dict.fromkeys(...))`, which keeps the first
occurrence of each element in order. -/

/-- The `list(dict.fromkeys(xs))` dedup, fuelled so that the recursion is
structural (the fuel is an upper bound on the list length, so the
`0, _ :: _` arm is never reached when called through `pyDedup`):
order-preserving dedup keeping first occurrences. -/
def pyDedupGo : Nat → List String → List String
  | _, [] => []
  | 0, _ :: _ => []
  | fuel+1, a :: l => a :: pyDedupGo fuel (l.filter (fun x => x != a))

/-- The `list(dict.fromkeys(xs))`: order-preserving dedup keeping first
occurrences. -/
def pyDedup (l : List String) : List String := pyDedupGo l.length l

/-- The merge-and-dedup step of `DiscoveryModule.run`: the per-tool
output lists are concatenated in the order the tasks are awaited, then
deduplicated. -/
def mergeSubdomains (outputs : List (List String)) : List String :=
  pyDedup outputs.flatten

/-- C10: merging `["x.com", "y.com", "x.com"]` and `["y.com", "z.com"]`
yields exactly the set `{x.com, y.com, z.com}` (as the deduplicated list
`["x.com", "y.com", "z.com"]`), and merging them in the opposite
completion order yields a permutation of it — the same set. -/
theorem C10_dedup_determinism :
    mergeSubdomains [["x.com", "y.com", "x.com"], ["y.com", "z.com"]] =
      ["x.com", "y.com", "z.com"] ∧
    (mergeSubdomains [["y.com", "z.com"], ["x.com", "y.com", "x.com"]]).Perm
      (mergeSubdomains [["x.com", "y.com", "x.com"], ["y.com", "z.com"]]) := by
  constructor
  · rfl
  · decide

/-! ## Session persistence — `src/core/utils/session_manager.py` -/

/-- A module results blob: the JSON-object dict that the `run()` of a module
returns, modelled as an association list of string keys and serialized
values (the `json.dumps` / `json.loads` round trip on such dicts is the
identity and is not modelled separately). -/
abbrev Blob := List (String × String)

/-- The per-module entry `SessionManager.save_results` writes into
the `modules` map of `session_data`. -/
structure SessModuleEntry where
  completed_at : ℚ
  results_file : String
  status : String
deriving Repr, DecidableEq

/-- The output directory of the target seen as a mapping from file paths
(relative to the output directory) to the JSON blobs written there. -/
structure FileSys where
  files : List (String × Blob)
deriving Repr, DecidableEq

/-- Reading a file that may not exist. -/
def FileSys.read? (fs : FileSys) (path : String) : Option Blob :=
  match fs.files.find? (fun p => p.1 == path) with
  | some (_, b) => some b
  | none => none

/-- Writing (creating or overwriting) a file. -/
def FileSys.write (fs : FileSys) (path : String) (b : Blob) : FileSys :=
  ⟨(path, b) :: fs.files.filter (fun p => p.1 != path)⟩

/-- The in-memory state of one `SessionManager` instance: the
`module_results` memo dict and the `modules` map of `session_data`. -/
structure SessionManagerM where
  module_results : List (String × Blob)
  session_modules : List (String × SessModuleEntry)
deriving Repr, DecidableEq

/-- The `<module>/processed/<module>_results.json` under the output
directory, as built by `save_results` and `get_results`. -/
def results_path (module_name : String) : String :=
  module_name ++ "/processed/" ++ module_name ++ "_results.json"

/-- The `SessionManager.save_results(module_name, results)` (happy path):
memoizes the results in `module_results`, writes the results file, and
records status `completed` with the results-file path and completion
time in the session data (which is then flushed to `session.json`). -/
def save_results (sm : SessionManagerM) (fs : FileSys) (now : ℚ)
    (module_name : String) (results : Blob) :
    SessionManagerM × FileSys :=
  let mem := (module_name, results) ::
    sm.module_results.filter (fun p => p.1 != module_name)
  let fs := fs.write (results_path module_name) results
  let sess := (module_name,
      SessModuleEntry.mk now (results_path module_name) "completed") ::
    sm.session_modules.filter (fun p => p.1 != module_name)
  (⟨mem, sess⟩, fs)

/-- A freshly constructed `SessionManager` over an existing output
directory: `module_results` starts empty, and `_load_session` populates
only `session_data` (which `get_results` never consults). -/
def freshSessionManager
    (session_modules : List (String × SessModuleEntry)) :
    SessionManagerM :=
  ⟨[], session_modules⟩

/-- The `SessionManager.get_results(module_name)`: the in-memory memo first,
then the results file of the module, else the empty dict.  (The write-back
memoization of a blob loaded from disk does not change the returned
value and is omitted.) -/
def get_results (sm : SessionManagerM) (fs : FileSys)
    (module_name : String) : Blob :=
  match sm.module_results.find? (fun p => p.1 == module_name) with
  | some (_, r) => r
  | none =>
    match fs.read? (results_path module_name) with
    | some r => r
    | none => []

/-- C9: after `save_results` persists the results of a module, the session
records status `completed` with the results-file path, and a fresh
session manager over the same output directory returns exactly the
stored blob from `get_results` (reading the file, not re-running the
module); for a module with nothing stored, `get_results` returns the
empty dict rather than raising. -/
theorem C9_session_resume (sm : SessionManagerM) (fs : FileSys) (now : ℚ)
    (name : String) (results : Blob)
    (sd : List (String × SessModuleEntry)) (other : String)
    (hother : fs.read? (results_path other) = none) :
    (save_results sm fs now name results).1.session_modules.find?
        (fun p => p.1 == name) =
      some (name, ⟨now, results_path name, "completed"⟩) ∧
    get_results (freshSessionManager sd)
        (save_results sm fs now name results).2 name = results ∧
    get_results (freshSessionManager sd) fs other = [] := by
  refine ⟨?_, ?_, ?_⟩
  · simp [save_results]
  · simp [save_results, get_results, freshSessionManager, FileSys.write,
      FileSys.read?, List.find?]
  · simp [get_results, freshSessionManager, List.find?, hother]

/-- Witness instantiating `C9_session_resume` on a concrete store. -/
theorem C9_session_resume_witness :
    (save_results ⟨[], []⟩ ⟨[]⟩ 0 "discovery"
        [("subdomains", "x.com")]).1.session_modules.find?
        (fun p => p.1 == "discovery") =
      some ("discovery", ⟨0, results_path "discovery", "completed"⟩) ∧
    get_results (freshSessionManager [])
        (save_results ⟨[], []⟩ ⟨[]⟩ 0 "discovery"
          [("subdomains", "x.com")]).2 "discovery" =
      [("subdomains", "x.com")] ∧
    get_results (freshSessionManager []) ⟨[]⟩ "dns_analysis" = [] :=
  C9_session_resume ⟨[], []⟩ ⟨[]⟩ 0 "discovery" [("subdomains", "x.com")]
    [] "dns_analysis" (by simp [FileSys.read?])

/-! ## Orchestrator module loop — `Framework.start`
(`src/core/framework.py`, lines 251–299)

For each module name in the computed order the loop marks the module
`running`, runs it, and then: if `run()` returned a truthy result, saves
it via `SessionManager.save_results`, marks the module `completed` and
(when modules remain) asks the operator whether to continue; if `run()`
returned a falsy result (`None` or an empty dict), the `if results:`
guard skips persistence, the status update and the prompt; if `run()`
raised, the exception is caught, the status becomes `error` with the
captured text, and the operator is asked whether to continue.  Start and
end timestamps, progress bars and performance monitoring do not bear on
the claimed status/persistence behaviour and are omitted. -/

/-- One entry of `Framework.module_states` (timestamps omitted). -/
structure ModuleState where
  status : String
  error : Option String
deriving Repr, DecidableEq

/-- The `Framework._initialize_modules`: every registered module starts
`pending` with no error. -/
def initStates (names : List String) : List (String × ModuleState) :=
  names.map (fun n => (n, ⟨"pending", none⟩))

/-- The behaviour of the `run()` of one module: either it returns a results
dict (possibly empty, which Python treats as falsy — an empty `Blob` also
models a `None` return) or it raises with a message. -/
inductive RunOutcome where
  | ok (results : Blob)
  | raises (msg : String)
deriving Repr, DecidableEq

/-- Dict-key lookup predicate for association lists keyed by strings. -/
def keyIs {β : Type _} (name : String) : String × β → Bool :=
  fun p => p.1 == name

/-- The `self.module_states[name] = f(self.module_states[name])`. -/
def setStates (states : List (String × ModuleState)) (name : String)
    (f : ModuleState → ModuleState) : List (String × ModuleState) :=
  states.map (fun p => if keyIs name p then (p.1, f p.2) else p)

/-- The orchestrator state threaded through the module loop, plus the
flag telling whether the loop proceeds to the next module. -/
structure OrchState where
  module_states : List (String × ModuleState)
  session : SessionManagerM
  fsys : FileSys
  continueRun : Bool
deriving Repr, DecidableEq

/-- The body of one iteration of the module loop in `Framework.start`.
`askAfter` is the Python guard `i < total_modules` on the
continue-prompt after a successful module. -/
def execModuleStep (outcome : String → RunOutcome)
    (contResponse : String → Bool) (name : String) (askAfter : Bool)
    (os : OrchState) : OrchState :=
  let states :=
    setStates os.module_states name (fun st => { st with status := "running" })
  match outcome name with
  | .ok results =>
    if results.isEmpty then
      -- falsy `run()` result: `if results:` skips save, status and prompt
      { os with module_states := states }
    else
      let saved := save_results os.session os.fsys 0 name results
      let states :=
        setStates states name (fun st => { st with status := "completed" })
      { module_states := states, session := saved.1, fsys := saved.2,
        continueRun := if askAfter then contResponse name else true }
  | .raises msg =>
    let states :=
      setStates states name
        (fun st => { st with status := "error", error := some msg })
    { os with module_states := states, continueRun := contResponse name }

/-- The `for i, name in enumerate(module_order, 1)` loop, stopping when
an operator response breaks out. -/
def runModulesGo (outcome : String → RunOutcome)
    (contResponse : String → Bool) :
    List String → Nat → Nat → OrchState → OrchState
  | [], _, _, os => os
  | name :: rest, i, total, os =>
    let os := execModuleStep outcome contResponse name (decide (i < total)) os
    if os.continueRun then
      runModulesGo outcome contResponse rest (i+1) total os
    else os

/-- The module phase of `Framework.start`: initial states from
`_initialize_modules`, then the loop over the computed order. -/
def runModules (names order : List String) (outcome : String → RunOutcome)
    (contResponse : String → Bool) : OrchState :=
  runModulesGo outcome contResponse order 1 order.length
    ⟨initStates names, ⟨[], []⟩, ⟨[]⟩, true⟩

/-- The number of modules whose final status is `s`, as counted by the
final summary. -/
def countStatus (states : List (String × ModuleState)) (s : String) : Nat :=
  (states.filter (fun p => p.2.status == s)).length

/-- Updating the state of module `name` rewrites exactly the entry that a
lookup for `name` sees. -/
theorem find?_setStates_self (states : List (String × ModuleState))
    (name : String) (f : ModuleState → ModuleState) :
    (setStates states name f).find? (keyIs name) =
      (states.find? (keyIs name)).map (fun p => (p.1, f p.2)) := by
  induction states with
  | nil => rfl
  | cons hd tl ih =>
    by_cases h : keyIs name hd
    · have h2 : keyIs name (hd.1, f hd.2) = true := by
        simpa [keyIs] using h
      simp only [setStates, List.map_cons, h, if_true]
      rw [List.find?_cons_of_pos _ h2, List.find?_cons_of_pos _ h]
      simp
    · have h' : keyIs name hd = false := by
        simpa using h
      simp only [setStates, List.map_cons, h', if_false, Bool.false_eq_true]
      rw [List.find?_cons_of_neg _ (by simp [h']),
        List.find?_cons_of_neg _ (by simp [h'])]
      exact ih

/-- C6 amended: in one iteration of the module loop, a module whose
`run()` returns a truthy (non-empty) result has that result persisted
via the session store (memo, results file path and `completed` session
status) and its state set to `completed`; a module whose `run()` raises
has its state set to `error` with the captured text — in both cases it
is not left `running`; but a module whose `run()` returns a falsy/empty
result has nothing persisted and its state remains `running` after the
iteration. -/
theorem C6_module_status (outcome : String → RunOutcome)
    (contResponse : String → Bool) (name : String) (askAfter : Bool)
    (os : OrchState) :
    (∀ results, outcome name = .ok results → results ≠ [] →
      (execModuleStep outcome contResponse name askAfter
            os).session.module_results.find? (keyIs name) =
          some (name, results) ∧
        (execModuleStep outcome contResponse name askAfter
            os).session.session_modules.find? (keyIs name) =
          some (name, ⟨0, results_path name, "completed"⟩) ∧
        (execModuleStep outcome contResponse name askAfter
            os).module_states.find? (keyIs name) =
          (os.module_states.find? (keyIs name)).map
            (fun p => (p.1, ⟨"completed", p.2.error⟩))) ∧
    (∀ msg, outcome name = .raises msg →
      (execModuleStep outcome contResponse name askAfter
          os).module_states.find? (keyIs name) =
        (os.module_states.find? (keyIs name)).map
          (fun p => (p.1, ⟨"error", some msg⟩))) ∧
    (∀ results, outcome name = .ok results → results = [] →
      (execModuleStep outcome contResponse name askAfter
          os).module_states.find? (keyIs name) =
        (os.module_states.find? (keyIs name)).map
          (fun p => (p.1, ⟨"running", p.2.error⟩)) ∧
      (execModuleStep outcome contResponse name askAfter os).session =
        os.session) := by
  refine ⟨?_, ?_, ?_⟩
  · intro results hok hne
    have hemp : results.isEmpty = false := by
      cases results <;> simp_all [List.isEmpty]
    refine ⟨?_, ?_, ?_⟩
    · simp [execModuleStep, hok, hemp, save_results, keyIs]
    · simp [execModuleStep, hok, hemp, save_results, keyIs]
    · simp only [execModuleStep, hok, hemp, find?_setStates_self,
        Option.map_map, Bool.false_eq_true, if_false]
      cases os.module_states.find? (keyIs name) <;> rfl
  · intro msg hraise
    simp only [execModuleStep, hraise, find?_setStates_self,
      Option.map_map]
    cases os.module_states.find? (keyIs name) <;> rfl
  · intro results hok hemp
    subst hemp
    simp [execModuleStep, hok, find?_setStates_self]

/-- C6 counterexample: a single module whose `run()` returns the empty
dict (falsy) without raising ends its execution step with status
`running` — not `completed` — and nothing persisted, contradicting the
claim that a non-raising `run()` leads to `completed` and that a started
module is never left `running`. -/
theorem C6_left_running_counterexample :
    (runModules ["discovery"] ["discovery"] (fun _ => .ok [])
        (fun _ => true)).module_states =
      [("discovery", ⟨"running", none⟩)] ∧
    (runModules ["discovery"] ["discovery"] (fun _ => .ok [])
        (fun _ => true)).session.module_results = [] := by
  constructor <;> rfl

/-- The initial orchestrator state over one registered module, used by
the C6 witness. -/
def osOne : OrchState :=
  ⟨initStates ["discovery"], ⟨[], []⟩, ⟨[]⟩, true⟩

/-- Witness instantiating `C6_module_status` on a concrete truthy run
result. -/
theorem C6_module_status_witness :
    (execModuleStep (fun _ => .ok [("subdomains", "x.com")])
          (fun _ => true) "discovery" false
          osOne).session.module_results.find?
        (keyIs "discovery") =
      some ("discovery", [("subdomains", "x.com")]) ∧
    (execModuleStep (fun _ => .ok [("subdomains", "x.com")])
          (fun _ => true) "discovery" false
          osOne).session.session_modules.find?
        (keyIs "discovery") =
      some ("discovery", ⟨0, results_path "discovery", "completed"⟩) ∧
    (execModuleStep (fun _ => .ok [("subdomains", "x.com")])
          (fun _ => true) "discovery" false
          osOne).module_states.find? (keyIs "discovery") =
      (osOne.module_states.find? (keyIs "discovery")).map
        (fun p => (p.1, ⟨"completed", p.2.error⟩)) :=
  (C6_module_status (fun _ => .ok [("subdomains", "x.com")])
      (fun _ => true) "discovery" false osOne).1
    [("subdomains", "x.com")] rfl (by simp)

/-! ## Module dependency graph — `Framework._build_module_graph` and
`Framework._get_module_order` (`src/core/framework.py`, lines 71–95)

`_build_module_graph` adds one node per registered module, then one edge
per declared (string) dependency, pointing from the dependency to its
dependent, and raises `ModuleDependencyError` iff `nx.find_cycle` finds a
cycle.  `_get_module_order` returns `nx.topological_sort`, which yields
remaining zero-indegree nodes in insertion order and is unfeasible
exactly when the graph is cyclic; it is modelled by the Kahn algorithm
fuelled by the node count. -/

/-- A registered module as graph construction sees it: its name and its
`get_dependencies()` list (string entries; the source skips non-string
entries). -/
structure ModuleDecl where
  name : String
  dependencies : List String
deriving Repr, DecidableEq

/-- The `networkx.DiGraph`: nodes in insertion order plus directed edges. -/
structure DiGraph where
  nodes : List String
  edges : List (String × String)
deriving Repr, DecidableEq

/-- The `DiGraph.add_node`: appends an unseen node, keeps a seen one. -/
def addNode (g : DiGraph) (n : String) : DiGraph :=
  if n ∈ g.nodes then g else { g with nodes := g.nodes ++ [n] }

/-- The `DiGraph.add_edge`: adds missing endpoints as nodes (as networkx
does), then appends the edge if new. -/
def addEdge (g : DiGraph) (a b : String) : DiGraph :=
  let g := addNode g a
  let g := addNode g b
  if (a, b) ∈ g.edges then g else { g with edges := g.edges ++ [(a, b)] }

/-- The node-insertion phase of `_build_module_graph`. -/
def addModuleNodes (g : DiGraph) (mods : List ModuleDecl) : DiGraph :=
  mods.foldl (fun g m => addNode g m.name) g

/-- The edge-insertion phase of `_build_module_graph`: an edge from each
declared dependency to its dependent. -/
def addModuleEdges (g : DiGraph) (mods : List ModuleDecl) : DiGraph :=
  mods.foldl
    (fun g m => m.dependencies.foldl (fun g d => addEdge g d m.name) g) g

/-- The dependency graph `_build_module_graph` constructs from the
registered modules. -/
def moduleGraph (mods : List ModuleDecl) : DiGraph :=
  addModuleEdges (addModuleNodes ⟨[], []⟩ mods) mods

/-- Holds when `v` has no incoming edge from a node still in `remaining`. -/
def noIncoming (edges : List (String × String)) (remaining : List String)
    (v : String) : Bool :=
  edges.all (fun e => !(e.2 == v && decide (e.1 ∈ remaining)))

/-- The first remaining node (in insertion order) of zero indegree
within the remaining set. -/
def pickZero (edges : List (String × String)) (remaining : List String) :
    Option String :=
  remaining.find? (noIncoming edges remaining)

/-- The Kahn algorithm over the remaining node list, fuelled by its
length: repeatedly emit the first zero-indegree node; report failure
(`none`, the networkx `NetworkXUnfeasible` condition) when nodes remain but every
one of them has an incoming edge from the remaining set. -/
def kahnAux (edges : List (String × String)) :
    Nat → List String → Option (List String)
  | _, [] => some []
  | 0, _ :: _ => none
  | fuel+1, v₀ :: rest =>
    match pickZero edges (v₀ :: rest) with
    | none => none
    | some v => (kahnAux edges fuel ((v₀ :: rest).erase v)).map (v :: ·)

/-- The `nx.topological_sort` on the graph. -/
def topologicalSort (g : DiGraph) : Option (List String) :=
  kahnAux g.edges g.nodes.length g.nodes

/-- The `nx.find_cycle` finds a cycle exactly when no topological order
exists. -/
def hasCycleB (g : DiGraph) : Bool := (topologicalSort g).isNone

/-- The `Framework._build_module_graph`: builds the graph and raises
`ModuleDependencyError` iff a cycle is detected. -/
def _build_module_graph (mods : List ModuleDecl) :
    Except String DiGraph :=
  let g := moduleGraph mods
  if hasCycleB g then .error "Circular dependencies detected in modules"
  else .ok g

/-- The `Framework._get_module_order`: the topological order, or
`ModuleDependencyError` when unfeasible. -/
def _get_module_order (g : DiGraph) : Except String (List String) :=
  match topologicalSort g with
  | some order => .ok order
  | none => .error "Could not resolve module dependencies"

/-- A directed cycle along `edges`: a node `v` with an edge path
`v → … → v` of length ≥ 1. -/
def HasCycleE (edges : List (String × String)) : Prop :=
  ∃ v l, List.Chain (fun a b => (a, b) ∈ edges) v (l ++ [v])

/-- A successful Kahn run emits a permutation of the remaining nodes. -/
theorem kahnAux_perm (edges : List (String × String)) :
    ∀ (fuel : Nat) (remaining order : List String),
      kahnAux edges fuel remaining = some order →
      order.Perm remaining := by
  intro fuel
  induction fuel with
  | zero =>
    intro remaining order h
    cases remaining with
    | nil => simp [kahnAux] at h; simp [← h]
    | cons v₀ rest => simp [kahnAux] at h
  | succ fuel ih =>
    intro remaining order h
    cases remaining with
    | nil => simp [kahnAux] at h; simp [← h]
    | cons v₀ rest =>
      rw [kahnAux] at h
      cases hp : pickZero edges (v₀ :: rest) with
      | none => rw [hp] at h; cases h
      | some v =>
        rw [hp] at h
        have h2 : Option.map (fun x => v :: x)
            (kahnAux edges fuel ((v₀ :: rest).erase v)) = some order := h
        cases ho : kahnAux edges fuel ((v₀ :: rest).erase v) with
        | none => rw [ho] at h2; cases h2
        | some order' =>
          rw [ho] at h2
          replace h2 : v :: order' = order := by simpa using h2
          have hv : v ∈ v₀ :: rest := List.mem_of_find?_eq_some hp
          rw [← h2]
          exact ((ih _ _ ho).cons v).trans (List.perm_cons_erase hv).symm

/-- In a successful Kahn run, the source of every edge between remaining
nodes is emitted strictly before its target. -/
theorem kahnAux_indexOf (edges : List (String × String)) :
    ∀ (fuel : Nat) (remaining order : List String),
      kahnAux edges fuel remaining = some order →
      ∀ a b, (a, b) ∈ edges → a ∈ remaining → b ∈ remaining →
        order.indexOf a < order.indexOf b := by
  intro fuel
  induction fuel with
  | zero =>
    intro remaining order h a b _hab ha _hb
    cases remaining with
    | nil => simp at ha
    | cons v₀ rest => simp [kahnAux] at h
  | succ fuel ih =>
    intro remaining order h a b hab ha hb
    cases remaining with
    | nil => simp at ha
    | cons v₀ rest =>
      rw [kahnAux] at h
      cases hp : pickZero edges (v₀ :: rest) with
      | none => rw [hp] at h; cases h
      | some v =>
        rw [hp] at h
        have h2 : Option.map (fun x => v :: x)
            (kahnAux edges fuel ((v₀ :: rest).erase v)) = some order := h
        cases ho : kahnAux edges fuel ((v₀ :: rest).erase v) with
        | none => rw [ho] at h2; cases h2
        | some order' =>
          rw [ho] at h2
          replace h2 : v :: order' = order := by simpa using h2
          have hpz : noIncoming edges (v₀ :: rest) v = true :=
            List.find?_some hp
          have hni : ∀ e ∈ edges, ¬(e.2 = v ∧ e.1 ∈ v₀ :: rest) := by
            intro e he
            have h3 := (List.all_eq_true.1 hpz) e he
            rintro ⟨h4, h5⟩
            simp [h4, h5] at h3
          by_cases hbv : b = v
          · exact absurd ⟨hbv, ha⟩ (hni (a, b) hab)
          · by_cases hav : a = v
            · subst hav
              rw [← h2, List.indexOf_cons_self]
              rw [List.indexOf_cons_ne _ (by simpa using Ne.symm hbv)]
              exact Nat.succ_pos _
            · have ha' : a ∈ (v₀ :: rest).erase v :=
                (List.mem_erase_of_ne hav).2 ha
              have hb' : b ∈ (v₀ :: rest).erase v :=
                (List.mem_erase_of_ne hbv).2 hb
              have := ih _ _ ho a b hab ha' hb'
              rw [← h2,
                List.indexOf_cons_ne _ (by simpa using Ne.symm hav),
                List.indexOf_cons_ne _ (by simpa using Ne.symm hbv)]
              exact Nat.succ_lt_succ this

/-! ### Cycle extraction when Kahn gets stuck -/

/-- The iterated-predecessor list `[f^[k] x, …, f x, x]`. -/
def descIter (f : String → String) (x : String) : Nat → List String
  | 0 => [x]
  | k+1 => f^[k+1] x :: descIter f x k

/-- The `descIter` always starts with `f^[k] x`. -/
theorem descIter_cons (f : String → String) (x : String) :
    ∀ k, ∃ t, descIter f x k = f^[k] x :: t
  | 0 => ⟨[], rfl⟩
  | k+1 => ⟨descIter f x k, rfl⟩

/-- The `descIter` always ends with `x`. -/
theorem descIter_getLast? (f : String → String) (x : String) :
    ∀ k, (descIter f x k).getLast? = some x
  | 0 => rfl
  | k+1 => by
    obtain ⟨t, ht⟩ := descIter_cons f x k
    show (f^[k+1] x :: descIter f x k).getLast? = some x
    rw [ht, List.getLast?_cons_cons, ← ht]
    exact descIter_getLast? f x k

/-- Iterates of an `R`-preserving function stay in `R`. -/
theorem iter_mem {R : List String} {f : String → String}
    (hstep : ∀ y ∈ R, f y ∈ R) {x : String} (hx : x ∈ R) :
    ∀ m, f^[m] x ∈ R
  | 0 => hx
  | m+1 => by
    rw [Function.iterate_succ_apply']
    exact hstep _ (iter_mem hstep hx m)

/-- Each consecutive pair of `descIter` is related by `r` when `f` picks
`r`-predecessors inside `R`. -/
theorem descIter_chain {r : String → String → Prop} {R : List String}
    {f : String → String}
    (hstep : ∀ y ∈ R, f y ∈ R ∧ r (f y) y) {x : String} (hx : x ∈ R) :
    ∀ k, List.Chain' r (descIter f x k)
  | 0 => by simp [descIter]
  | k+1 => by
    obtain ⟨t, ht⟩ := descIter_cons f x k
    show List.Chain' r (f^[k+1] x :: descIter f x k)
    rw [ht, List.chain'_cons, ← ht]
    refine ⟨?_, descIter_chain hstep hx k⟩
    rw [Function.iterate_succ_apply']
    exact (hstep _ (iter_mem (fun y hy => (hstep y hy).1) hx k)).2

/-- A point of period `m + 1` under an edge-predecessor function yields a
directed cycle. -/
theorem cycle_of_periodic {edges : List (String × String)}
    {R : List String} {f : String → String}
    (hstep : ∀ y ∈ R, f y ∈ R ∧ (f y, y) ∈ edges)
    {x : String} (hx : x ∈ R) (m : Nat) (hper : f^[m+1] x = x) :
    HasCycleE edges := by
  obtain ⟨t, ht⟩ := descIter_cons f x m
  refine ⟨f^[m] x, t, ?_⟩
  have hmem : ∀ k, f^[k] x ∈ R :=
    iter_mem (fun y hy => (hstep y hy).1) hx
  have hclose : (x, f^[m] x) ∈ edges := by
    have h5 := (hstep (f^[m] x) (hmem m)).2
    have h6 : f (f^[m] x) = x := by
      rw [← Function.iterate_succ_apply' f m x]
      exact hper
    rwa [h6] at h5
  have hfull : List.Chain' (fun p q => (p, q) ∈ edges)
      (descIter f x m ++ [f^[m] x]) := by
    rw [List.chain'_append]
    refine ⟨descIter_chain hstep hx m, by simp, ?_⟩
    intro p hp q hq
    rw [descIter_getLast? f x m] at hp
    simp only [Option.mem_def, Option.some.injEq] at hp hq
    subst hp
    simp only [List.head?_cons, Option.some.injEq] at hq
    subst hq
    exact hclose
  rw [ht] at hfull
  exact hfull

/-- Pigeonhole: if every node of a nonempty finite set has an incoming
edge from inside the set, the edges contain a cycle. -/
theorem cycle_of_all_pred (edges : List (String × String))
    (R : List String) (hne : R ≠ [])
    (h : ∀ v ∈ R, ∃ u ∈ R, (u, v) ∈ edges) : HasCycleE edges := by
  classical
  choose! f hfmem hfedge using h
  have hstep : ∀ y ∈ R, f y ∈ R ∧ (f y, y) ∈ edges :=
    fun y hy => ⟨hfmem y hy, hfedge y hy⟩
  obtain ⟨v₀, hv₀⟩ := List.exists_mem_of_ne_nil R hne
  have hiter : ∀ m, f^[m] v₀ ∈ R :=
    iter_mem (fun y hy => (hstep y hy).1) hv₀
  have hcard :
      R.toFinset.card < (Finset.univ : Finset (Fin (R.length + 1))).card := by
    simpa using Nat.lt_succ_of_le R.toFinset_card_le
  obtain ⟨i, -, j, -, hij, heq⟩ :=
    Finset.exists_ne_map_eq_of_card_lt_of_maps_to hcard
      (fun k _ => List.mem_toFinset.2 (hiter (k : Nat)))
  have main : ∀ (a b : Nat), a < b → f^[a] v₀ = f^[b] v₀ →
      HasCycleE edges := by
    intro a b hab hfeq
    obtain ⟨m, rfl⟩ : ∃ m, b = a + (m + 1) := ⟨b - a - 1, by omega⟩
    apply cycle_of_periodic hstep (hiter a) m
    rw [← Function.iterate_add_apply,
      show m + 1 + a = a + (m + 1) by omega]
    exact hfeq.symm
  have hvne : (i : Nat) ≠ (j : Nat) := fun hh => hij (Fin.ext hh)
  rcases Nat.lt_or_ge (i : Nat) (j : Nat) with hlt | hge
  · exact main i j hlt heq
  · exact main j i (by omega) heq.symm

/-- If the Kahn algorithm gets stuck (with fuel equal to the node count),
the edges contain a cycle. -/
theorem cycle_of_kahnAux_none (edges : List (String × String)) :
    ∀ (fuel : Nat) (remaining : List String),
      remaining.length = fuel →
      kahnAux edges fuel remaining = none → HasCycleE edges := by
  intro fuel
  induction fuel with
  | zero =>
    intro remaining hlen h
    cases remaining with
    | nil => simp [kahnAux] at h
    | cons v₀ rest => simp at hlen
  | succ fuel ih =>
    intro remaining hlen h
    cases remaining with
    | nil => simp [kahnAux] at h
    | cons v₀ rest =>
      rw [kahnAux] at h
      cases hp : pickZero edges (v₀ :: rest) with
      | some v =>
        rw [hp] at h
        have h2 : Option.map (fun x => v :: x)
            (kahnAux edges fuel ((v₀ :: rest).erase v)) = none := h
        cases ho : kahnAux edges fuel ((v₀ :: rest).erase v) with
        | some order' => rw [ho] at h2; cases h2
        | none =>
          have hv : v ∈ v₀ :: rest := List.mem_of_find?_eq_some hp
          apply ih _ _ ho
          rw [List.length_erase_of_mem hv, hlen]
          rfl
      | none =>
        apply cycle_of_all_pred edges (v₀ :: rest) (by simp)
        intro v hv
        have hnone : ¬ (noIncoming edges (v₀ :: rest) v = true) :=
          List.find?_eq_none.1 hp v hv
        simp only [noIncoming, List.all_eq_true, not_forall] at hnone
        obtain ⟨e, he, hcond⟩ := hnone
        rcases e with ⟨a, b⟩
        simp at hcond
        obtain ⟨hb, ha⟩ := hcond
        subst hb
        refine ⟨a, ?_, he⟩
        rcases Decidable.em (a = v₀) with hav | hav
        · simp [hav]
        · exact List.mem_cons_of_mem _ (ha hav)

/-- If the Kahn algorithm succeeds on a node list containing all edge
endpoints, the edges contain no cycle. -/
theorem not_cycle_of_kahnAux_some (edges : List (String × String))
    (fuel : Nat) (remaining order : List String)
    (h : kahnAux edges fuel remaining = some order)
    (hwf : ∀ e ∈ edges, e.1 ∈ remaining ∧ e.2 ∈ remaining) :
    ¬ HasCycleE edges := by
  rintro ⟨v, l, hchain⟩
  have edge_lt : ∀ a b, (a, b) ∈ edges →
      order.indexOf a < order.indexOf b := fun a b hab =>
    kahnAux_indexOf edges fuel remaining order h a b hab
      (hwf _ hab).1 (hwf _ hab).2
  have mono : ∀ (ys : List String) (x : String),
      List.Chain (fun a b => (a, b) ∈ edges) x ys →
      ∀ z ∈ ys.getLast?, order.indexOf x < order.indexOf z := by
    intro ys
    induction ys with
    | nil => intro x _ z hz; simp at hz
    | cons y ys ihy =>
      intro x hch z hz
      rcases List.chain_cons.1 hch with ⟨hxy, hch2⟩
      have h1 := edge_lt _ _ hxy
      cases ys with
      | nil =>
        simp at hz
        subst hz
        exact h1
      | cons w ws =>
        have hz2 : z ∈ (w :: ws).getLast? := by
          simpa [List.getLast?_cons_cons] using hz
        exact h1.trans (ihy y hch2 z hz2)
  have hlast : v ∈ (l ++ [v]).getLast? := by
    simp [List.getLast?_concat]
  exact lt_irrefl _ (mono (l ++ [v]) v hchain v hlast)

/-! ### Structure of the constructed graph -/

/-- A graph built by `addNode`/`addEdge` has duplicate-free nodes and all
edge endpoints among the nodes. -/
def WFGraph (g : DiGraph) : Prop :=
  g.nodes.Nodup ∧ ∀ e ∈ g.edges, e.1 ∈ g.nodes ∧ e.2 ∈ g.nodes

theorem mem_nodes_addNode {g : DiGraph} {m : String} (n : String)
    (h : m ∈ g.nodes) : m ∈ (addNode g n).nodes := by
  unfold addNode
  split
  · exact h
  · exact List.mem_append_left _ h

theorem mem_nodes_addNode_self (g : DiGraph) (n : String) :
    n ∈ (addNode g n).nodes := by
  unfold addNode
  split
  · assumption
  · exact List.mem_append_right _ (by simp)

theorem edges_addNode (g : DiGraph) (n : String) :
    (addNode g n).edges = g.edges := by
  unfold addNode
  split <;> rfl

theorem wf_addNode {g : DiGraph} (n : String) (h : WFGraph g) :
    WFGraph (addNode g n) := by
  refine ⟨?_, ?_⟩
  · unfold addNode
    split
    · exact h.1
    · rename_i hn
      simp [List.nodup_append, h.1, List.disjoint_singleton, hn]
  · intro e he
    rw [edges_addNode] at he
    exact ⟨mem_nodes_addNode n (h.2 e he).1,
      mem_nodes_addNode n (h.2 e he).2⟩

theorem addEdge_nodes (g : DiGraph) (a b : String) :
    (addEdge g a b).nodes = (addNode (addNode g a) b).nodes := by
  simp only [addEdge]
  split <;> rfl

theorem mem_nodes_addEdge {g : DiGraph} {m : String} (a b : String)
    (h : m ∈ g.nodes) : m ∈ (addEdge g a b).nodes := by
  rw [addEdge_nodes]
  exact mem_nodes_addNode b (mem_nodes_addNode a h)

theorem mem_edges_addEdge_self (g : DiGraph) (a b : String) :
    (a, b) ∈ (addEdge g a b).edges := by
  simp only [addEdge]
  split
  · assumption
  · exact List.mem_append_right _ (by simp)

/-- The `addEdge` either keeps the edge list or appends the new edge. -/
theorem edges_addEdge (g : DiGraph) (a b : String) :
    (addEdge g a b).edges = g.edges ∨
      (addEdge g a b).edges = g.edges ++ [(a, b)] := by
  simp only [addEdge]
  split
  · left
    rw [edges_addNode, edges_addNode]
  · right
    show (addNode (addNode g a) b).edges ++ [(a, b)] = g.edges ++ [(a, b)]
    rw [edges_addNode, edges_addNode]

theorem edges_subset_addEdge (g : DiGraph) (a b : String) :
    g.edges ⊆ (addEdge g a b).edges := by
  rcases edges_addEdge g a b with h | h <;> rw [h]
  · exact fun e he => he
  · exact fun e he => List.mem_append_left _ he

theorem wf_addEdge {g : DiGraph} (a b : String) (h : WFGraph g) :
    WFGraph (addEdge g a b) := by
  have hwf2 : WFGraph (addNode (addNode g a) b) := wf_addNode b (wf_addNode a h)
  refine ⟨?_, ?_⟩
  · rw [addEdge_nodes]
    exact hwf2.1
  · intro e he
    rcases edges_addEdge g a b with hh | hh <;> rw [hh] at he
    · exact ⟨mem_nodes_addEdge a b (h.2 e he).1,
        mem_nodes_addEdge a b (h.2 e he).2⟩
    · rcases List.mem_append.1 he with he' | he'
      · exact ⟨mem_nodes_addEdge a b (h.2 e he').1,
          mem_nodes_addEdge a b (h.2 e he').2⟩
      · have : e = (a, b) := by simpa using he'
        subst this
        rw [addEdge_nodes]
        exact ⟨mem_nodes_addNode b (mem_nodes_addNode_self g a),
          mem_nodes_addNode_self (addNode g a) b⟩

theorem wf_addModuleNodes (mods : List ModuleDecl) :
    ∀ g, WFGraph g → WFGraph (addModuleNodes g mods) := by
  induction mods with
  | nil => intro g h; exact h
  | cons m mods ih => intro g h; exact ih _ (wf_addNode m.name h)

theorem wf_foldl_addEdge (deps : List String) (name : String) :
    ∀ g, WFGraph g →
      WFGraph (deps.foldl (fun g d => addEdge g d name) g) := by
  induction deps with
  | nil => intro g h; exact h
  | cons d deps ih => intro g h; exact ih _ (wf_addEdge d name h)

theorem wf_addModuleEdges (mods : List ModuleDecl) :
    ∀ g, WFGraph g → WFGraph (addModuleEdges g mods) := by
  induction mods with
  | nil => intro g h; exact h
  | cons m mods ih =>
    intro g h
    exact ih _ (wf_foldl_addEdge m.dependencies m.name g h)

/-- The constructed module graph is well formed. -/
theorem moduleGraph_wf (mods : List ModuleDecl) :
    WFGraph (moduleGraph mods) :=
  wf_addModuleEdges mods _
    (wf_addModuleNodes mods ⟨[], []⟩ ⟨List.nodup_nil, by simp⟩)

theorem edges_subset_foldl_addEdge (deps : List String) (name : String) :
    ∀ g, g.edges ⊆ (deps.foldl (fun g d => addEdge g d name) g).edges := by
  induction deps with
  | nil => intro g e he; exact he
  | cons d deps ih =>
    intro g e he
    exact ih _ (edges_subset_addEdge g d name he)

theorem edges_subset_addModuleEdges (mods : List ModuleDecl) :
    ∀ g, g.edges ⊆ (addModuleEdges g mods).edges := by
  induction mods with
  | nil => intro g e he; exact he
  | cons m mods ih =>
    intro g e he
    exact ih _ (edges_subset_foldl_addEdge m.dependencies m.name g he)

theorem mem_foldl_addEdge (deps : List String) (name d : String) :
    ∀ g, d ∈ deps →
      (d, name) ∈ (deps.foldl (fun g d => addEdge g d name) g).edges := by
  induction deps with
  | nil => intro g h; simp at h
  | cons d0 deps ih =>
    intro g h
    rcases List.mem_cons.1 h with h' | h'
    · subst h'
      exact edges_subset_foldl_addEdge deps name _
        (mem_edges_addEdge_self g d name)
    · exact ih _ h'

/-- Every declared (registered-module) dependency yields its edge in the
constructed graph. -/
theorem mem_addModuleEdges (mods : List ModuleDecl) :
    ∀ g (m : ModuleDecl), m ∈ mods → ∀ d ∈ m.dependencies,
      (d, m.name) ∈ (addModuleEdges g mods).edges := by
  induction mods with
  | nil => intro g m h; simp at h
  | cons m0 mods ih =>
    intro g m hm d hd
    rcases List.mem_cons.1 hm with h' | h'
    · subst h'
      exact edges_subset_addModuleEdges mods _
        (mem_foldl_addEdge m.dependencies m.name d g hd)
    · exact ih _ m h' d hd

/-- The `add_node` on an already-present node is the identity. -/
theorem addNode_eq_of_mem {g : DiGraph} {n : String} (h : n ∈ g.nodes) :
    addNode g n = g := by
  simp [addNode, h]

/-- Adding fresh, pairwise-distinct module names appends them in
registration order. -/
theorem addModuleNodes_nodes (mods : List ModuleDecl) :
    ∀ g, (mods.map (fun m => m.name)).Nodup →
      (∀ m ∈ mods, m.name ∉ g.nodes) →
      (addModuleNodes g mods).nodes =
        g.nodes ++ mods.map (fun m => m.name) := by
  induction mods with
  | nil => intro g _ _; simp [addModuleNodes]
  | cons m mods ih =>
    intro g hnd hni
    have hmn : m.name ∉ g.nodes := hni m (by simp)
    have hstep : addNode g m.name =
        { g with nodes := g.nodes ++ [m.name] } := by
      simp [addNode, hmn]
    show (addModuleNodes (addNode g m.name) mods).nodes = _
    rw [hstep, ih _ (by simpa using hnd.of_cons)
      (by
        intro m' hm'
        simp only [List.mem_append, List.mem_singleton]
        rintro (hc | hc)
        · exact hni m' (List.mem_cons_of_mem _ hm') hc
        · have : m.name ∈ mods.map (fun m => m.name) := by
            rw [← hc]
            exact List.mem_map_of_mem _ hm'
          exact (List.nodup_cons.1 hnd).1 this)]
    simp

/-- The `add_edge` between present nodes leaves the node list unchanged. -/
theorem addEdge_nodes_of_mem {g : DiGraph} {a b : String}
    (ha : a ∈ g.nodes) (hb : b ∈ g.nodes) :
    (addEdge g a b).nodes = g.nodes := by
  have h1 : addNode g a = g := addNode_eq_of_mem ha
  rw [addEdge_nodes, h1, addNode_eq_of_mem hb]

theorem foldl_addEdge_nodes (deps : List String) (name : String) :
    ∀ g, name ∈ g.nodes → (∀ d ∈ deps, d ∈ g.nodes) →
      (deps.foldl (fun g d => addEdge g d name) g).nodes = g.nodes := by
  induction deps with
  | nil => intro g _ _; rfl
  | cons d deps ih =>
    intro g hn hd
    have hdg : d ∈ g.nodes := hd d (by simp)
    have h1 : (addEdge g d name).nodes = g.nodes :=
      addEdge_nodes_of_mem hdg hn
    show (deps.foldl (fun g d => addEdge g d name) (addEdge g d name)).nodes = g.nodes
    rw [ih _ (by rw [h1]; exact hn)
      (by
        intro d' hd'
        rw [h1]
        exact hd d' (List.mem_cons_of_mem _ hd'))]
    exact h1

theorem addModuleEdges_nodes (mods : List ModuleDecl) :
    ∀ g, (∀ m ∈ mods, m.name ∈ g.nodes ∧
        ∀ d ∈ m.dependencies, d ∈ g.nodes) →
      (addModuleEdges g mods).nodes = g.nodes := by
  induction mods with
  | nil => intro g _; rfl
  | cons m mods ih =>
    intro g hyp
    have hm := hyp m (by simp)
    have h1 : (m.dependencies.foldl (fun g d => addEdge g d m.name) g).nodes
        = g.nodes := foldl_addEdge_nodes m.dependencies m.name g hm.1 hm.2
    show (addModuleEdges
        (m.dependencies.foldl (fun g d => addEdge g d m.name) g) mods).nodes = g.nodes
    rw [ih _ (by
      intro m' hm'
      rw [h1]
      exact hyp m' (List.mem_cons_of_mem _ hm'))]
    exact h1

/-- When the registered names are distinct and every declared dependency
is itself a registered module, the nodes of the constructed graph are
exactly the registered names, in registration order. -/
theorem moduleGraph_nodes (mods : List ModuleDecl)
    (hnd : (mods.map (fun m => m.name)).Nodup)
    (hdeps : ∀ m ∈ mods, ∀ d ∈ m.dependencies,
      d ∈ mods.map (fun m => m.name)) :
    (moduleGraph mods).nodes = mods.map (fun m => m.name) := by
  have h1 : (addModuleNodes ⟨[], []⟩ mods).nodes =
      mods.map (fun m => m.name) := by
    simpa using addModuleNodes_nodes mods ⟨[], []⟩ hnd (by simp)
  unfold moduleGraph
  rw [addModuleEdges_nodes mods _ (by
    intro m hm
    rw [h1]
    exact ⟨List.mem_map_of_mem _ hm, hdeps m hm⟩)]
  exact h1

/-- C1: for a registered module set with distinct names whose declared
dependencies all refer to registered modules: if the dependency relation
is acyclic, graph construction succeeds and `_get_module_order` returns
a total order over all registered modules in which every declared
dependency precedes its dependents; if the declared dependencies contain
a cycle, `_build_module_graph` raises `ModuleDependencyError` — before
any module executes, and no order is produced. -/
theorem C1_acyclic_ordering (mods : List ModuleDecl)
    (hnd : (mods.map (fun m => m.name)).Nodup)
    (hdeps : ∀ m ∈ mods, ∀ d ∈ m.dependencies,
      d ∈ mods.map (fun m => m.name)) :
    (¬ HasCycleE (moduleGraph mods).edges →
      ∃ order, _build_module_graph mods = .ok (moduleGraph mods) ∧
        _get_module_order (moduleGraph mods) = .ok order ∧
        order.Perm (mods.map (fun m => m.name)) ∧
        ∀ m ∈ mods, ∀ d ∈ m.dependencies,
          order.indexOf d < order.indexOf m.name) ∧
    (HasCycleE (moduleGraph mods).edges →
      _build_module_graph mods =
        .error "Circular dependencies detected in modules") := by
  constructor
  · intro hnc
    cases hts : topologicalSort (moduleGraph mods) with
    | none =>
      exact absurd
        (cycle_of_kahnAux_none (moduleGraph mods).edges _ _ rfl hts) hnc
    | some order =>
      refine ⟨order, ?_, ?_, ?_, ?_⟩
      · simp [_build_module_graph, hasCycleB, hts]
      · simp [_get_module_order, hts]
      · have hperm := kahnAux_perm (moduleGraph mods).edges _ _ _ hts
        rwa [moduleGraph_nodes mods hnd hdeps] at hperm
      · intro m hm d hd
        have hedge : (d, m.name) ∈ (moduleGraph mods).edges :=
          mem_addModuleEdges mods _ m hm d hd
        have hwf := (moduleGraph_wf mods).2 _ hedge
        exact kahnAux_indexOf (moduleGraph mods).edges _ _ _ hts d m.name
          hedge hwf.1 hwf.2
  · intro hc
    cases hts : topologicalSort (moduleGraph mods) with
    | some order =>
      exact absurd hc (not_cycle_of_kahnAux_some (moduleGraph mods).edges
        _ _ _ hts (fun e he => (moduleGraph_wf mods).2 e he))
    | none =>
      simp [_build_module_graph, hasCycleB, hts]

/-- Acyclic two-module set used by the C1 witness. -/
def modsAB : List ModuleDecl := [⟨"A", []⟩, ⟨"B", ["A"]⟩]

/-- Cyclic two-module set used by the C1 witness. -/
def modsCyc : List ModuleDecl := [⟨"A", ["B"]⟩, ⟨"B", ["A"]⟩]

/-- Witness instantiating `C1_acyclic_ordering` on a concrete acyclic
set and a concrete cyclic set. -/
theorem C1_acyclic_ordering_witness :
    (∃ order, _build_module_graph modsAB = .ok (moduleGraph modsAB) ∧
      _get_module_order (moduleGraph modsAB) = .ok order ∧
      order.Perm (modsAB.map (fun m => m.name)) ∧
      ∀ m ∈ modsAB, ∀ d ∈ m.dependencies,
        order.indexOf d < order.indexOf m.name) ∧
    _build_module_graph modsCyc =
      .error "Circular dependencies detected in modules" := by
  constructor
  · have hts : topologicalSort (moduleGraph modsAB) = some ["A", "B"] :=
      rfl
    exact (C1_acyclic_ordering modsAB (by decide) (by decide)).1
      (not_cycle_of_kahnAux_some (moduleGraph modsAB).edges _ _ _ hts
        (fun e he => (moduleGraph_wf modsAB).2 e he))
  · exact (C1_acyclic_ordering modsCyc (by decide) (by decide)).2
      ⟨"A", ["B"], List.Chain.cons (by decide)
        (List.Chain.cons (by decide) List.Chain.nil)⟩

/-! ## The end-to-end three-module scenario (C8) -/

/-- Three modules: `A` (no deps), `B` (depends on `A`), `C` (depends on
`A` and `B`). -/
def modsABC : List ModuleDecl :=
  [⟨"A", []⟩, ⟨"B", ["A"]⟩, ⟨"C", ["A", "B"]⟩]

/-- Run behaviour for the scenario: `A.run()` raises; the others would
return results. -/
def outcomeAerr : String → RunOutcome :=
  fun n => if n = "A" then .raises "boom" else .ok [("k", "v")]

/-- C8: the computed order is `[A, B, C]`; when `A.run()` raises, the
exception is recorded against `A` and the operator is asked whether to
proceed; declining leaves `B` and `C` `pending`, and the final summary
counts exactly one `error` module and two `pending` modules. -/
theorem C8_error_scenario :
    _get_module_order (moduleGraph modsABC) = .ok ["A", "B", "C"] ∧
    (runModules (modsABC.map (fun m => m.name)) ["A", "B", "C"]
        outcomeAerr (fun _ => false)).module_states =
      [("A", ⟨"error", some "boom"⟩), ("B", ⟨"pending", none⟩),
        ("C", ⟨"pending", none⟩)] ∧
    countStatus (runModules (modsABC.map (fun m => m.name))
        ["A", "B", "C"] outcomeAerr (fun _ => false)).module_states
      "error" = 1 ∧
    countStatus (runModules (modsABC.map (fun m => m.name))
        ["A", "B", "C"] outcomeAerr (fun _ => false)).module_states
      "pending" = 2 := by
  refine ⟨rfl, rfl, rfl, rfl⟩

end LLEO
